import Mathlib

/-!
Verification of `src/npplib/insert.py` (notepad++ auto-format plugin core).

Strings of the Python source are modelled as `List Char`.  Each Python
string primitive used by the source gets its own definition below
(`pyIsSpace`, `pyLstrip`, `pyRstrip`, `pyStrip`, `pySplit`), matching
CPython semantics on the ASCII whitespace set the source manipulates.

The host editor (Scintilla) is an external collaborator: each handler is
modelled as a pure function from a read-only projection of the editor
state (the values the handler queries through `editor.*` accessors) to
the list of write operations it performs (`WriteOp`).  An empty list of
write operations is the "no-op" outcome of the source's early `return`s.
-/

namespace NppInsert

/-- Python whitespace test (`str.split` / `strip` separator set), restricted
to the ASCII whitespace characters. -/
def pyIsSpace (c : Char) : Bool :=
  c == ' ' || c == '\t' || c == '\n' || c == '\r' || c == '\x0b' || c == '\x0c'

/-- Python `line.lstrip()`. -/
def pyLstrip (l : List Char) : List Char := l.dropWhile pyIsSpace

/-- Python `line.rstrip()`. -/
def pyRstrip (l : List Char) : List Char := (l.reverse.dropWhile pyIsSpace).reverse

/-- Python `line.strip()`. -/
def pyStrip (l : List Char) : List Char := pyRstrip (pyLstrip l)

/-- One pass of Python `str.split()`: `acc` holds the characters of the
word currently being read, most recent first; a whitespace character
closes the running word (if any), a non-whitespace character extends
it. -/
def pySplitAux : List Char → List Char → List (List Char)
  | [], acc => if acc.isEmpty then [] else [acc.reverse]
  | c :: cs, acc =>
    if pyIsSpace c then
      if acc.isEmpty then pySplitAux cs [] else acc.reverse :: pySplitAux cs []
    else pySplitAux cs (c :: acc)

/-- Python `line.split()` (no argument): split on runs of whitespace,
producing the list of (nonempty) words. -/
def pySplit (line : List Char) : List (List Char) := pySplitAux line []

/-- Embeds `_is_comment` (insert.py lines 214-225):
`line.lstrip().startswith(comment_str)`. -/
def is_comment (comment_str line : List Char) : Bool :=
  comment_str.isPrefixOf (pyLstrip line)

/-- Python `line[:line.index(pat)]` for a substring `pat`: the part of
`line` strictly before the first occurrence of `pat`, `none` when `pat`
does not occur (Python raises `ValueError` there). -/
def beforeMarker? (pat : List Char) : List Char → Option (List Char)
  | [] => if pat.isPrefixOf ([] : List Char) then some [] else none
  | c :: cs =>
    if pat.isPrefixOf (c :: cs) then some []
    else (beforeMarker? pat cs).map (fun t => c :: t)

/-- A well-formed comment marker: nonempty and starting with a
non-whitespace character (holds for the registry's markers `#`, `//`). -/
def markerOK : List Char → Bool
  | [] => false
  | c :: _ => !pyIsSpace c

/-! ## The greedy word-packing loop (insert.py lines 148-168)

The source builds a flat list `new_words` of string pieces
(`line_start`, words, `" "` and `"\r\n"` separators).  Here the same
loop is embedded with the output structured as a list of output lines,
each the list of the words placed on it; `renderLine`/`renderBlock`
below reproduce the final `"".join(new_words)` string from this
structure.  `cur` is the line currently being filled, `lineLen` the
running `line_len`, `wordCount` the running `word_count` and `acc` the
lines already closed. -/

/-- One step per remaining word, exactly mirroring the `for word in iter(it)`
loop body.  The `wordCount + 1 = 1` branch embeds the source's
`if word_count == 1` arm (which additionally consumes `next(it, None)`);
since `word_count` starts at 1 and is reset to 1, that arm is
unreachable (`wordCount + 1 = 1` would need `wordCount = 0`), so the
modelling of its `None` case (ending with the flush) is immaterial. -/
def wrapCore (limit lsl : Nat) :
    List (List Char) → List (List Char) → Nat → Nat →
    List (List (List Char)) → List (List (List Char))
  | [], cur, _, _, acc => acc ++ [cur]
  | w :: rest, cur, lineLen, wordCount, acc =>
    if limit < lineLen + w.length + 1 then
      if wordCount + 1 = 1 then
        match rest with
        | w2 :: rest2 =>
          wrapCore limit lsl rest2 [w2] (lsl + w.length) 1 (acc ++ [cur ++ [w]])
        | [] => acc ++ [cur ++ [w]]
      else
        wrapCore limit lsl rest [w] (lsl + w.length) 1 (acc ++ [cur])
    else
      wrapCore limit lsl rest (cur ++ [w]) (lineLen + w.length + 1) (wordCount + 1) acc

/-- Embeds lines 148-151 (`new_words = [line_start, next(it, None)]`,
`line_len = line_start_len + len(new_words[1])`, `word_count = 1`)
followed by the loop.  The `[]` case cannot arise at the call site
(the source guarantees at least two words at this point). -/
def wrapWords (limit lsl : Nat) : List (List Char) → List (List (List Char))
  | [] => []
  | w :: rest => wrapCore limit lsl rest [w] (lsl + w.length) 1 []

/-- Embeds lines 128-130: `if words[0] == str_start: del words[0]`. -/
def delMarker (str_start : List Char) (words : List (List Char)) : List (List Char) :=
  if words.head? = some str_start then words.tail else words

/-- Embeds lines 136-138: `if str_start and words[0].startswith(str_start):
words[0] = words[0][len(str_start):]`. -/
def stripMarker (str_start : List Char) : List (List Char) → List (List Char)
  | [] => []
  | w :: rest =>
    if str_start ≠ [] ∧ str_start.isPrefixOf w then w.drop str_start.length :: rest
    else w :: rest

/-- The words of one output line joined with single spaces (the `" "`
separators of `new_words`). -/
def joinWords : List (List Char) → List Char
  | [] => []
  | [w] => w
  | w :: ws => w ++ ' ' :: joinWords ws

/-- One rendered output line: the synthesized per-line `line_start`
followed by the line's words joined with single spaces. -/
def renderLine (line_start : List Char) (ws : List (List Char)) : List Char :=
  line_start ++ joinWords ws

/-- Rendered output lines joined with the `"\r\n"` separators of
`new_words`. -/
def joinLines : List (List Char) → List Char
  | [] => []
  | [l] => l
  | l :: ls => l ++ '\r' :: '\n' :: joinLines ls

/-- The full text `"".join(new_words)` written by `editor.addText`. -/
def renderBlock (line_start : List Char) (lines : List (List (List Char))) : List Char :=
  joinLines (lines.map (renderLine line_start))

/-- The character length of a rendered output line with `lsl` prefix
characters: `lsl + Σ word lengths + (word count - 1)` spaces. -/
def renderLen (lsl : Nat) (ws : List (List Char)) : Nat :=
  lsl + (ws.map List.length).sum + (ws.length - 1)

/-- The last element of `new_words`, i.e. the last word of the last
output line (every live path of the loop ends its extensions with a
word); used for the `new_words[-1].endswith` docstring check. -/
def lastWord (lines : List (List (List Char))) : List Char :=
  (lines.getLast?.getD []).getLast?.getD []

/-- Embeds lines 116-149 of `_on_CHARADDED_wrap`: the length and
token-count preconditions and the construction of `line_start` and of
the packed output lines; `none` is an early `return`.
The `pySplit line = []` arm models the source raising `IndexError` at
`words[0][0]` (line 122) before its own `words == []` guard (line 125);
both are unreachable whenever the length guard has passed (claim C10).
`takeWhile (· ≠ c0)` is `line[:line.index(words[0][0])]`: the part of
the line before the first occurrence of the first word's first
character (which always occurs, being the first word's head). -/
def wrapLines? (limit : Nat) (str_start line : List Char) :
    Option (List Char × List (List (List Char))) :=
  if (pyRstrip line).length ≤ limit then none
  else
    match pySplit line with
    | [] => none
    | w0 :: ws0 =>
      match w0 with
      | [] => none
      | c0 :: _ =>
        let white_space := line.takeWhile (fun d => d ≠ c0)
        let words1 := delMarker str_start (w0 :: ws0)
        if words1 = [] ∨ words1.length ≤ 1 then none
        else
          let words2 := stripMarker str_start words1
          let line_start :=
            if str_start ≠ [] then white_space ++ str_start ++ [' '] else white_space
          some (line_start, wrapWords limit line_start.length words2)

/-! ## Editor write operations and handler views

A handler invocation is modelled as a pure function from the values it
reads through the host accessors to the ordered list of write
operations (`editor.replaceLine`, `editor.addText`, `editor.lineEnd`,
`editor.charLeft`) it performs; `[]` models the early-`return` no-op. -/

/-- A buffer/caret mutation performed through the host editor. -/
inductive WriteOp
  | replaceLine : Nat → List Char → WriteOp
  | addText : List Char → WriteOp
  | lineEnd : WriteOp
  | charLeft : WriteOp
deriving DecidableEq

/-- The editor values read by `_on_CHARADDED_wrap` (lines 87-99):
`editor.getCurrentPos()`, `editor.lineFromPosition(pos)`,
`editor.getLine(line_num)`, `editor.getLineEndPosition(line_num)`,
`editor.getStyleAt(pos)`. -/
structure WrapView where
  pos : Nat
  lineNum : Nat
  line : List Char
  lineEndPos : Nat
  styleAtPos : Nat
deriving DecidableEq

/-- The editor values read by `_on_RETURN_insert_comment` (lines
195-198): the current line's number and text, and the texts of the two
lines above it. -/
structure ReturnView where
  lineNum : Nat
  line : List Char
  pLine : List Char
  ppLine : List Char
deriving DecidableEq

/-- One `_lang_map` entry.  The `.c` entry has no docstring keys; a
Python access to a missing key would raise `KeyError`, modelled by the
`Option` fields (the dispatcher only requests docstring wrapping for
the `.py` entry, which has all three). -/
structure LangMap where
  file_extension : List Char
  comment_str : List Char
  style_comment : Nat
  comment_limit : Nat
  style_docstring : Option Nat
  docstring_limit : Option Nat
  docstring_str : Option (List Char)
deriving DecidableEq

/-- The `.py` entry of `_lang_map` (insert.py lines 23-32). -/
def lang_map_py : LangMap :=
  { file_extension := ".py".toList
    comment_str := "#".toList
    style_comment := 1
    comment_limit := 72
    style_docstring := some 7
    docstring_limit := some 72
    docstring_str := some [] }

/-- The `.c` entry of `_lang_map` (insert.py lines 33-38). -/
def lang_map_c : LangMap :=
  { file_extension := ".c".toList
    comment_str := "//".toList
    style_comment := 2
    comment_limit := 72
    style_docstring := none
    docstring_limit := none
    docstring_str := none }

/-- Lookup of a lowercased extension in `_lang_map`. -/
def langMapLookup (ext : List Char) : Option LangMap :=
  if ext = ".py".toList then some lang_map_py
  else if ext = ".c".toList then some lang_map_c
  else none

/-- Embeds the tail of `_on_CHARADDED_wrap` (lines 116-182): the
re-wrap preconditions and block construction via `wrapLines?`, then the
writes `editor.replaceLine(line_num, "")`, `editor.addText(...)`,
`editor.lineEnd()`, and for a docstring whose last word ends in `\x22\x22\x22`
three `editor.charLeft()` calls. -/
def wrapTail (limit : Nat) (str_start ty : List Char) (v : WrapView) : List WriteOp :=
  match wrapLines? limit str_start v.line with
  | none => []
  | some (line_start, lines) =>
    [WriteOp.replaceLine v.lineNum [],
     WriteOp.addText (renderBlock line_start lines),
     WriteOp.lineEnd] ++
    (if ty = "docstring".toList then
       if ("\"\"\"".toList).isSuffixOf (lastWord lines) then
         [WriteOp.charLeft, WriteOp.charLeft, WriteOp.charLeft]
       else []
     else [])

/-- Embeds `_on_CHARADDED_wrap` (insert.py lines 74-182).  The checks,
in source order: caret at end of line or the typed char a space
(line 93); for `type == "docstring"` the style at the caret must equal
`style_docstring` (line 99); for `type == "comment"` the line must be a
comment (line 107); any other `type` returns (line 114); then the
length/token preconditions and the writes, via `wrapTail`. -/
def on_CHARADDED_wrap (l_map : LangMap) (ch : Nat) (ty : List Char) (v : WrapView) :
    List WriteOp :=
  if v.pos ≠ v.lineEndPos ∧ ch ≠ 32 then []
  else if ty = "docstring".toList then
    match l_map.style_docstring, l_map.docstring_limit, l_map.docstring_str with
    | some sd, some dl, some ds =>
      if v.styleAtPos ≠ sd then []
      else wrapTail dl ds ty v
    | _, _, _ => []
  else if ty = "comment".toList then
    if ¬ is_comment l_map.comment_str v.line then []
    else wrapTail l_map.comment_limit l_map.comment_str ty v
  else []

/-- Embeds `_on_RETURN_insert_comment` (insert.py lines 185-211).  The
decision (line 200) must pass, then the new line is replaced with
`p_line[:p_line.index(comment_str)] + comment_str + " " +
trailing_string` and the caret moved to end of line.  The
`beforeMarker? = none` arm models Python's `ValueError` from
`p_line.index`; it is unreachable once `_is_comment` holds for
`p_line`. -/
def on_RETURN_insert_comment (l_map : LangMap) (v : ReturnView) : List WriteOp :=
  let trailing_string := pyStrip v.line
  if ¬ (is_comment l_map.comment_str v.ppLine ∨ trailing_string ≠ []) ∨
      ¬ is_comment l_map.comment_str v.pLine then []
  else
    match beforeMarker? l_map.comment_str v.pLine with
    | none => []
    | some pre =>
      [WriteOp.replaceLine v.lineNum
        (pre ++ l_map.comment_str ++ [' '] ++ trailing_string),
       WriteOp.lineEnd]

/-- Embeds the dispatcher `on_CHARADDED_insert` (insert.py lines
42-71).  `ext` is the `os.path.splitext(...)` extension of the active
file (the split itself is the external `os.path` collaborator); the
dispatcher lowercases it and checks membership in `_lang_map`.  `ch` is
`args["ch"]`.  Because the two sequential wrap attempts for `.py` each
re-read the editor, they receive separate views `v1` (first call) and
`v2` (state after the first call's writes, equal to `v1` when the first
call wrote nothing). -/
def on_CHARADDED_insert (ext : List Char) (ch : Nat) (v1 v2 : WrapView)
    (rv : ReturnView) : List WriteOp :=
  let extL := ext.map Char.toLower
  if (langMapLookup extL).isNone then []
  else if ch = 10 then
    match langMapLookup extL with
    | some m => on_RETURN_insert_comment m rv
    | none => []
  else if extL = ".py".toList then
    on_CHARADDED_wrap lang_map_py ch ("docstring".toList) v1 ++
      on_CHARADDED_wrap lang_map_py ch ("comment".toList) v2
  else if extL = ".c".toList then
    on_CHARADDED_wrap lang_map_c ch ("comment".toList) v1
  else []

/-- The conjunction of every precondition `_on_CHARADDED_wrap` checks
before its first write, in source order. -/
def wrapPre (l_map : LangMap) (ch : Nat) (ty : List Char) (v : WrapView) : Bool :=
  (v.pos == v.lineEndPos || ch == 32) &&
  (if ty = "docstring".toList then
     match l_map.style_docstring, l_map.docstring_limit, l_map.docstring_str with
     | some sd, some dl, some ds =>
       v.styleAtPos == sd && (wrapLines? dl ds v.line).isSome
     | _, _, _ => false
   else if ty = "comment".toList then
     is_comment l_map.comment_str v.line &&
       (wrapLines? l_map.comment_limit l_map.comment_str v.line).isSome
   else false)

/-- The precondition `_on_RETURN_insert_comment` checks before its
first write. -/
def returnPre (l_map : LangMap) (v : ReturnView) : Bool :=
  (is_comment l_map.comment_str v.ppLine || !(pyStrip v.line).isEmpty) &&
    is_comment l_map.comment_str v.pLine

/-! ## Properties of the word-packing loop -/

/-- One-step equation: no words left, the current line is closed. -/
theorem wrapCore_nil (limit lsl : Nat) (cur : List (List Char)) (ll wc : Nat)
    (acc : List (List (List Char))) :
    wrapCore limit lsl [] cur ll wc acc = acc ++ [cur] := by
  rw [wrapCore]

/-- One-step equation for the source's unreachable `word_count == 1`
arm with a further word available. -/
theorem wrapCore_dead (limit lsl : Nat) (w w2 : List Char) (rest2 cur : List (List Char))
    (ll wc : Nat) (acc : List (List (List Char)))
    (h1 : limit < ll + w.length + 1) (h2 : wc + 1 = 1) :
    wrapCore limit lsl (w :: w2 :: rest2) cur ll wc acc =
      wrapCore limit lsl rest2 [w2] (lsl + w.length) 1 (acc ++ [cur ++ [w]]) := by
  conv_lhs => rw [wrapCore.eq_def]
  simp only [if_pos h1, if_pos h2]

/-- One-step equation for the source's unreachable `word_count == 1`
arm with the iterator exhausted. -/
theorem wrapCore_dead_nil (limit lsl : Nat) (w : List Char) (cur : List (List Char))
    (ll wc : Nat) (acc : List (List (List Char)))
    (h1 : limit < ll + w.length + 1) (h2 : wc + 1 = 1) :
    wrapCore limit lsl [w] cur ll wc acc = acc ++ [cur ++ [w]] := by
  conv_lhs => rw [wrapCore.eq_def]
  simp only [if_pos h1, if_pos h2]

/-- One-step equation: the word overflows the running line, which is
closed; the word opens a fresh line. -/
theorem wrapCore_over (limit lsl : Nat) (w : List Char) (rest cur : List (List Char))
    (ll wc : Nat) (acc : List (List (List Char)))
    (h1 : limit < ll + w.length + 1) (h2 : ¬ wc + 1 = 1) :
    wrapCore limit lsl (w :: rest) cur ll wc acc =
      wrapCore limit lsl rest [w] (lsl + w.length) 1 (acc ++ [cur]) := by
  conv_lhs => rw [wrapCore.eq_def]
  simp only [if_pos h1, if_neg h2]

/-- One-step equation: the word fits and is appended to the running
line. -/
theorem wrapCore_take (limit lsl : Nat) (w : List Char) (rest cur : List (List Char))
    (ll wc : Nat) (acc : List (List (List Char)))
    (h1 : ¬ limit < ll + w.length + 1) :
    wrapCore limit lsl (w :: rest) cur ll wc acc =
      wrapCore limit lsl rest (cur ++ [w]) (ll + w.length + 1) (wc + 1) acc := by
  conv_lhs => rw [wrapCore.eq_def]
  simp only [if_neg h1]

/-- The loop only appends to the already-closed lines, and the lines it
appends flatten back to the words it was given: first the current
line's words, then the remaining words, in order. -/
theorem wrapCore_acc_flatten (limit lsl : Nat) :
    ∀ (rest cur : List (List Char)) (ll wc : Nat) (acc : List (List (List Char))),
    ∃ T, wrapCore limit lsl rest cur ll wc acc = acc ++ T ∧ T.flatten = cur ++ rest := by
  intro rest cur ll wc acc
  induction rest, cur, ll, wc, acc using wrapCore.induct limit lsl with
  | case1 cur ll wc acc =>
    exact ⟨[cur], wrapCore_nil limit lsl cur ll wc acc, by simp⟩
  | case2 w cur ll wc acc hlt heq w2 rest2 ih =>
    obtain ⟨T, hT, hflat⟩ := ih
    refine ⟨(cur ++ [w]) :: T, ?_, by simp [hflat]⟩
    rw [wrapCore_dead limit lsl w w2 rest2 cur ll wc acc hlt heq, hT]
    simp
  | case3 w cur ll wc acc hlt heq =>
    exact ⟨[cur ++ [w]], wrapCore_dead_nil limit lsl w cur ll wc acc hlt heq, by simp⟩
  | case4 w rest cur ll wc acc hlt hne ih =>
    obtain ⟨T, hT, hflat⟩ := ih
    refine ⟨cur :: T, ?_, by simp [hflat]⟩
    rw [wrapCore_over limit lsl w rest cur ll wc acc hlt hne, hT]
    simp
  | case5 w rest cur ll wc acc hge ih =>
    obtain ⟨T, hT, hflat⟩ := ih
    refine ⟨T, ?_, by simp [hflat]⟩
    rw [wrapCore_take limit lsl w rest cur ll wc acc hge, hT]

/-- Every line the loop produces is nonempty (given a nonempty current
line and nonempty closed lines). -/
theorem wrapCore_ne_nil (limit lsl : Nat) :
    ∀ (rest cur : List (List Char)) (ll wc : Nat) (acc : List (List (List Char))),
    cur ≠ [] → (∀ l ∈ acc, l ≠ []) →
    ∀ l ∈ wrapCore limit lsl rest cur ll wc acc, l ≠ [] := by
  intro rest cur ll wc acc
  induction rest, cur, ll, wc, acc using wrapCore.induct limit lsl with
  | case1 cur ll wc acc =>
    intro hcur hacc l hl
    rw [wrapCore_nil limit lsl cur ll wc acc] at hl
    simp only [List.mem_append, List.mem_singleton] at hl
    rcases hl with hl | rfl
    · exact hacc l hl
    · exact hcur
  | case2 w cur ll wc acc hlt heq w2 rest2 ih =>
    intro hcur hacc l hl
    rw [wrapCore_dead limit lsl w w2 rest2 cur ll wc acc hlt heq] at hl
    refine ih (by simp) ?_ l hl
    intro m hm
    simp only [List.mem_append, List.mem_singleton] at hm
    rcases hm with hm | rfl
    · exact hacc m hm
    · simp
  | case3 w cur ll wc acc hlt heq =>
    intro hcur hacc l hl
    rw [wrapCore_dead_nil limit lsl w cur ll wc acc hlt heq] at hl
    simp only [List.mem_append, List.mem_singleton] at hl
    rcases hl with hl | rfl
    · exact hacc l hl
    · simp
  | case4 w rest cur ll wc acc hlt hne ih =>
    intro hcur hacc l hl
    rw [wrapCore_over limit lsl w rest cur ll wc acc hlt hne] at hl
    refine ih (by simp) ?_ l hl
    intro m hm
    simp only [List.mem_append, List.mem_singleton] at hm
    rcases hm with hm | rfl
    · exact hacc m hm
    · exact hcur
  | case5 w rest cur ll wc acc hge ih =>
    intro hcur hacc l hl
    rw [wrapCore_take limit lsl w rest cur ll wc acc hge] at hl
    exact ih (by simp) hacc l hl

/-- Appending one word to a nonempty line adds its length plus one
space to the rendered length. -/
theorem renderLen_append (lsl : Nat) (cur : List (List Char)) (w : List Char)
    (h : cur ≠ []) :
    renderLen lsl (cur ++ [w]) = renderLen lsl cur + w.length + 1 := by
  have h1 : 0 < cur.length := List.length_pos.mpr h
  simp only [renderLen, List.map_append, List.sum_append, List.length_append]
  simp only [List.map_cons, List.map_nil, List.sum_cons, List.sum_nil, List.length_cons,
    List.length_nil]
  omega

/-- The running `line_len` tracks the rendered length of the current
line, and any closed line holding at least two words fits within the
limit: its last word was only appended after the `line_len >
line_len_limit` test failed. -/
theorem wrapCore_len_bound (limit lsl : Nat) :
    ∀ (rest cur : List (List Char)) (ll wc : Nat) (acc : List (List (List Char))),
    ll = renderLen lsl cur → wc = cur.length → cur ≠ [] →
    (2 ≤ cur.length → ll ≤ limit) →
    (∀ l ∈ acc, 2 ≤ l.length → renderLen lsl l ≤ limit) →
    ∀ l ∈ wrapCore limit lsl rest cur ll wc acc, 2 ≤ l.length → renderLen lsl l ≤ limit := by
  intro rest cur ll wc acc
  induction rest, cur, ll, wc, acc using wrapCore.induct limit lsl with
  | case1 cur ll wc acc =>
    intro hll hwc hcur hcur2 hacc l hl hl2
    rw [wrapCore_nil limit lsl cur ll wc acc] at hl
    simp only [List.mem_append, List.mem_singleton] at hl
    rcases hl with hl | rfl
    · exact hacc l hl hl2
    · exact hll ▸ hcur2 hl2
  | case2 w cur ll wc acc hlt heq w2 rest2 ih =>
    intro hll hwc hcur hcur2 hacc l hl
    exfalso
    have h1 : 0 < cur.length := List.length_pos.mpr hcur
    omega
  | case3 w cur ll wc acc hlt heq =>
    intro hll hwc hcur hcur2 hacc l hl
    exfalso
    have h1 : 0 < cur.length := List.length_pos.mpr hcur
    omega
  | case4 w rest cur ll wc acc hlt hne ih =>
    intro hll hwc hcur hcur2 hacc l hl
    rw [wrapCore_over limit lsl w rest cur ll wc acc hlt hne] at hl
    refine ih ?_ rfl (by simp) (by simp) ?_ l hl
    · simp [renderLen]
    · intro m hm hm2
      simp only [List.mem_append, List.mem_singleton] at hm
      rcases hm with hm | rfl
      · exact hacc m hm hm2
      · exact hll ▸ hcur2 hm2
  | case5 w rest cur ll wc acc hge ih =>
    intro hll hwc hcur hcur2 hacc l hl
    rw [wrapCore_take limit lsl w rest cur ll wc acc hge] at hl
    refine ih ?_ (by simp [hwc]) (by simp) ?_ hacc l hl
    · rw [renderLen_append lsl cur w hcur, hll]
    · intro _
      omega

/-- Once the current line consists of a single word that together with
the prefix already exceeds the limit, that line is closed as-is: every
further word overflows it, so it is emitted with exactly that one word
and the remaining words flatten to the following lines. -/
theorem wrapCore_flush_single (limit lsl : Nat) (w : List Char)
    (hW : limit < lsl + w.length) (rest : List (List Char))
    (acc : List (List (List Char))) :
    ∃ L₂, wrapCore limit lsl rest [w] (lsl + w.length) 1 acc = acc ++ [w] :: L₂ ∧
      L₂.flatten = rest := by
  cases rest with
  | nil =>
    refine ⟨[], ?_, by simp⟩
    rw [wrapCore_nil limit lsl [w] (lsl + w.length) 1 acc]
  | cons w2 rest2 =>
    have hlt : limit < (lsl + w.length) + w2.length + 1 := by omega
    obtain ⟨T, hT, hflat⟩ := wrapCore_acc_flatten limit lsl rest2 [w2] (lsl + w2.length) 1
      (acc ++ [[w]])
    refine ⟨T, ?_, by simp [hflat]⟩
    rw [wrapCore_over limit lsl w2 rest2 [w] (lsl + w.length) 1 acc hlt
      (by omega : ¬(1 + 1 = 1)), hT]
    simp

/-- Reaching a word longer than the limit: the loop closes the current
line, gives the long word a line of its own, and the following words
flatten to the subsequent lines. -/
theorem wrapCore_overlong (limit lsl : Nat) (w : List Char) (hW : limit < w.length) :
    ∀ (r₁ cur : List (List Char)) (ll wc : Nat) (acc : List (List (List Char)))
      (r₂ : List (List Char)), 1 ≤ wc →
    ∃ L₁ L₂, wrapCore limit lsl (r₁ ++ w :: r₂) cur ll wc acc = L₁ ++ [w] :: L₂ ∧
      L₁.flatten = acc.flatten ++ cur ++ r₁ ∧ L₂.flatten = r₂ := by
  intro r₁
  induction r₁ with
  | nil =>
    intro cur ll wc acc r₂ hwc
    have hlt : limit < ll + w.length + 1 := by omega
    obtain ⟨L₂, hL₂, hflat⟩ := wrapCore_flush_single limit lsl w (by omega) r₂ (acc ++ [cur])
    refine ⟨acc ++ [cur], L₂, ?_, by simp, hflat⟩
    simp only [List.nil_append]
    rw [wrapCore_over limit lsl w r₂ cur ll wc acc hlt (by omega : ¬(wc + 1 = 1)), hL₂]
  | cons v r₁' ih =>
    intro cur ll wc acc r₂ hwc
    by_cases hlt : limit < ll + v.length + 1
    · obtain ⟨L₁, L₂, hEq, hJ1, hJ2⟩ :=
        ih [v] (lsl + v.length) 1 (acc ++ [cur]) r₂ (by omega)
      refine ⟨L₁, L₂, ?_, ?_, hJ2⟩
      · simp only [List.cons_append]
        rw [wrapCore_over limit lsl v (r₁' ++ w :: r₂) cur ll wc acc hlt
          (by omega : ¬(wc + 1 = 1))]
        exact hEq
      · rw [hJ1]; simp
    · obtain ⟨L₁, L₂, hEq, hJ1, hJ2⟩ :=
        ih (cur ++ [v]) (ll + v.length + 1) (wc + 1) acc r₂ (by omega)
      refine ⟨L₁, L₂, ?_, ?_, hJ2⟩
      · simp only [List.cons_append]
        rw [wrapCore_take limit lsl v (r₁' ++ w :: r₂) cur ll wc acc hlt]
        exact hEq
      · rw [hJ1]; simp

/-- The packed lines flatten back to exactly the word sequence given to
the loop: no word is lost, duplicated or reordered. -/
theorem wrapWords_flatten (limit lsl : Nat) (words : List (List Char)) :
    (wrapWords limit lsl words).flatten = words := by
  cases words with
  | nil => simp [wrapWords]
  | cons w rest =>
    obtain ⟨T, hT, hflat⟩ := wrapCore_acc_flatten limit lsl rest [w] (lsl + w.length) 1 []
    simp only [wrapWords, hT, List.nil_append]
    simpa using hflat

/-- Every produced line holds at least one word. -/
theorem wrapWords_ne_nil (limit lsl : Nat) (words : List (List Char)) :
    ∀ l ∈ wrapWords limit lsl words, l ≠ [] := by
  cases words with
  | nil => simp [wrapWords]
  | cons w rest =>
    exact wrapCore_ne_nil limit lsl rest [w] (lsl + w.length) 1 [] (by simp) (by simp)

/-- Every produced line with at least two words fits within the limit. -/
theorem wrapWords_len_bound (limit lsl : Nat) (words : List (List Char)) :
    ∀ l ∈ wrapWords limit lsl words, 2 ≤ l.length → renderLen lsl l ≤ limit := by
  cases words with
  | nil => simp [wrapWords]
  | cons w rest =>
    refine wrapCore_len_bound limit lsl rest [w] (lsl + w.length) 1 []
      ?_ (by simp) (by simp) (by simp) (by simp)
    simp [renderLen]

/-- A word longer than the limit is emitted on a line of its own, in
sequence: the lines before it flatten to the words before it and the
lines after it to the words after it. -/
theorem wrapWords_overlong (limit lsl : Nat) (words l₁ l₂ : List (List Char))
    (w : List Char) (hW : limit < w.length) (hsplit : words = l₁ ++ w :: l₂) :
    ∃ L₁ L₂, wrapWords limit lsl words = L₁ ++ [w] :: L₂ ∧
      L₁.flatten = l₁ ∧ L₂.flatten = l₂ ∧ (L₂.head?.getD []).head? = l₂.head? := by
  have hmain : ∃ L₁ L₂, wrapWords limit lsl words = L₁ ++ [w] :: L₂ ∧
      L₁.flatten = l₁ ∧ L₂.flatten = l₂ := by
    subst hsplit
    cases l₁ with
    | nil =>
      obtain ⟨L₂, hEq, hflat⟩ :=
        wrapCore_flush_single limit lsl w (by omega) l₂ []
      exact ⟨[], L₂, by simpa [wrapWords] using hEq, by simp, hflat⟩
    | cons v l₁' =>
      obtain ⟨L₁, L₂, hEq, hJ1, hJ2⟩ :=
        wrapCore_overlong limit lsl w hW l₁' [v] (lsl + v.length) 1 [] l₂ (by omega)
      refine ⟨L₁, L₂, ?_, by simpa using hJ1, hJ2⟩
      simpa [wrapWords] using hEq
  obtain ⟨L₁, L₂, hEq, hJ1, hJ2⟩ := hmain
  refine ⟨L₁, L₂, hEq, hJ1, hJ2, ?_⟩
  cases hL2 : L₂ with
  | nil =>
    subst hL2
    simp only [List.flatten_nil] at hJ2
    simp [← hJ2]
  | cons hl L₂' =>
    have hne : hl ≠ [] := by
      refine wrapWords_ne_nil limit lsl words hl ?_
      rw [hEq, hL2]; simp
    obtain ⟨c, t, rfl⟩ : ∃ c t, hl = c :: t := by
      cases hl with
      | nil => exact absurd rfl hne
      | cons c t => exact ⟨c, t, rfl⟩
    subst hL2
    simp only [List.flatten_cons] at hJ2
    simp [← hJ2]

/-! ## Rendered line lengths -/

/-- Length of space-joined words: the word lengths plus one separator
per gap. -/
theorem joinWords_length :
    ∀ ws : List (List Char), ws ≠ [] →
      (joinWords ws).length = (ws.map List.length).sum + (ws.length - 1) := by
  intro ws
  induction ws with
  | nil => intro h; exact absurd rfl h
  | cons w ws ih =>
    intro _
    cases ws with
    | nil => simp [joinWords]
    | cons w' t =>
      have h := ih (by simp)
      have hst : joinWords (w :: w' :: t) = w ++ ' ' :: joinWords (w' :: t) := rfl
      rw [hst]
      simp only [List.length_append, List.length_cons, h]
      simp only [List.map_cons, List.sum_cons, List.length_cons]
      omega

/-- The character length of a rendered line is its `renderLen`. -/
theorem renderLine_length (line_start : List Char) (ws : List (List Char)) (h : ws ≠ []) :
    (renderLine line_start ws).length = renderLen line_start.length ws := by
  have h1 : 0 < ws.length := List.length_pos.mpr h
  simp only [renderLine, renderLen, List.length_append, joinWords_length ws h]
  omega

/-! ## Tokenization facts -/

/-- A nonempty `rstrip` result means the line holds a non-whitespace
character. -/
theorem pyRstrip_ne_nil (line : List Char) (h : pyRstrip line ≠ []) :
    ∃ c ∈ line, pyIsSpace c = false := by
  simp only [pyRstrip] at h
  have h2 : line.reverse.dropWhile pyIsSpace ≠ [] := by
    intro hc; rw [hc] at h; exact h rfl
  rw [Ne, List.dropWhile_eq_nil_iff] at h2
  push_neg at h2
  obtain ⟨c, hc, hcs⟩ := h2
  exact ⟨c, List.mem_reverse.mp hc, by simpa using hcs⟩

/-- A word already being read guarantees at least one produced word. -/
theorem pySplitAux_ne_nil_of_acc :
    ∀ (line acc : List Char), acc ≠ [] → pySplitAux line acc ≠ [] := by
  intro line
  induction line with
  | nil =>
    intro acc hacc
    rw [pySplitAux, if_neg (by simpa [List.isEmpty_iff] using hacc)]
    simp
  | cons c cs ih =>
    intro acc hacc
    by_cases hc : pyIsSpace c
    · rw [pySplitAux, if_pos hc, if_neg (by simpa [List.isEmpty_iff] using hacc)]
      simp
    · rw [pySplitAux, if_neg hc]
      exact ih (c :: acc) (by simp)

/-- A line holding a non-whitespace character tokenizes to a nonempty
word list. -/
theorem pySplit_ne_nil :
    ∀ line : List Char, (∃ c ∈ line, pyIsSpace c = false) → pySplit line ≠ [] := by
  have haux : ∀ (line acc : List Char), (∃ c ∈ line, pyIsSpace c = false) →
      pySplitAux line acc ≠ [] := by
    intro line
    induction line with
    | nil => rintro acc ⟨c, hc, _⟩; cases hc
    | cons c cs ih =>
      rintro acc ⟨d, hd, hds⟩
      by_cases hc : pyIsSpace c
      · have hdc : d ∈ cs := by
          rcases List.mem_cons.mp hd with rfl | h
          · rw [hc] at hds; cases hds
          · exact h
        rw [pySplitAux, if_pos hc]
        by_cases hacc : acc.isEmpty
        · rw [if_pos hacc]
          exact ih [] ⟨d, hdc, hds⟩
        · rw [if_neg hacc]
          simp
      · rw [pySplitAux, if_neg hc]
        exact pySplitAux_ne_nil_of_acc cs (c :: acc) (by simp)
  intro line h
  exact haux line [] h

/-- The first word `pySplitAux` produces is nonempty, and each of its
characters' candidates comes from the line or the running word. -/
theorem pySplitAux_head :
    ∀ (line acc : List Char) (w : List Char) (ws : List (List Char)),
      pySplitAux line acc = w :: ws →
      w ≠ [] ∧ ∀ c, w.head? = some c → c ∈ line ∨ c ∈ acc := by
  intro line
  induction line with
  | nil =>
    intro acc w ws h
    rw [pySplitAux] at h
    by_cases hacc : acc.isEmpty
    · rw [if_pos hacc] at h; cases h
    · rw [if_neg hacc] at h
      injection h with h1 _
      have hacc' : acc ≠ [] := by simpa [List.isEmpty_iff] using hacc
      refine ⟨by rw [← h1]; simpa using hacc', ?_⟩
      intro d hd
      rw [← h1] at hd
      right
      exact List.mem_reverse.mp (List.mem_of_mem_head? hd)
  | cons c cs ih =>
    intro acc w ws h
    by_cases hc : pyIsSpace c
    · rw [pySplitAux, if_pos hc] at h
      by_cases hacc : acc.isEmpty
      · rw [if_pos hacc] at h
        obtain ⟨h1, h2⟩ := ih [] w ws h
        refine ⟨h1, fun d hd => ?_⟩
        rcases h2 d hd with hmem | hmem
        · exact Or.inl (List.mem_cons_of_mem c hmem)
        · cases hmem
      · rw [if_neg hacc] at h
        injection h with h1 _
        have hacc' : acc ≠ [] := by simpa [List.isEmpty_iff] using hacc
        refine ⟨by rw [← h1]; simpa using hacc', ?_⟩
        intro d hd
        rw [← h1] at hd
        right
        exact List.mem_reverse.mp (List.mem_of_mem_head? hd)
    · rw [pySplitAux, if_neg hc] at h
      obtain ⟨h1, h2⟩ := ih (c :: acc) w ws h
      refine ⟨h1, fun d hd => ?_⟩
      rcases h2 d hd with hmem | hmem
      · exact Or.inl (List.mem_cons_of_mem c hmem)
      · rcases List.mem_cons.mp hmem with heq | hmem
        · exact Or.inl (by rw [heq]; exact List.mem_cons_self _ cs)
        · exact Or.inr hmem

/-- The first word `pySplit` produces is nonempty and starts with a
character of the line (so Python's `line.index(words[0][0])` cannot
fail). -/
theorem pySplit_head (line : List Char) (w : List Char) (ws : List (List Char))
    (h : pySplit line = w :: ws) : w ≠ [] ∧ ∀ c, w.head? = some c → c ∈ line := by
  obtain ⟨h1, h2⟩ := pySplitAux_head line [] w ws h
  refine ⟨h1, fun c hc => ?_⟩
  rcases h2 c hc with hmem | hmem
  · exact hmem
  · cases hmem

/-! ## Marker occurrence in a comment line -/

/-- When the marker occurs as a prefix of the whitespace-stripped line
(`_is_comment`), `p_line.index(marker)` succeeds. -/
theorem beforeMarker?_isSome :
    ∀ (cs line : List Char), is_comment cs line = true →
      (beforeMarker? cs line).isSome := by
  intro cs line
  induction line with
  | nil =>
    intro h
    simp only [is_comment, pyLstrip, List.dropWhile_nil] at h
    simp [beforeMarker?, h]
  | cons c rest ih =>
    intro h
    rw [beforeMarker?]
    by_cases hp : cs.isPrefixOf (c :: rest)
    · rw [if_pos hp]; simp
    · rw [if_neg hp]
      by_cases hc : pyIsSpace c
      · have h2 : is_comment cs rest = true := by
          simpa [is_comment, pyLstrip, List.dropWhile_cons, hc] using h
        simpa using ih h2
      · exfalso
        apply hp
        simpa [is_comment, pyLstrip, List.dropWhile_cons, hc] using h

/-- For a well-formed marker, the part of a comment line before the
first occurrence of the marker is exactly its leading whitespace: the
indentation. -/
theorem beforeMarker?_comment :
    ∀ (cs line : List Char), markerOK cs = true → is_comment cs line = true →
      beforeMarker? cs line = some (line.takeWhile pyIsSpace) := by
  intro cs line hok
  induction line with
  | nil =>
    intro h
    obtain ⟨m, cs', rfl⟩ : ∃ m cs', cs = m :: cs' := by
      cases cs with
      | nil => cases hok
      | cons m cs' => exact ⟨m, cs', rfl⟩
    simp only [is_comment, pyLstrip, List.dropWhile_nil] at h
    simp [List.isPrefixOf] at h
  | cons c rest ih =>
    intro h
    obtain ⟨m, cs', rfl⟩ : ∃ m cs', cs = m :: cs' := by
      cases cs with
      | nil => cases hok
      | cons m cs' => exact ⟨m, cs', rfl⟩
    have hm : pyIsSpace m = false := by simpa [markerOK] using hok
    by_cases hc : pyIsSpace c
    · have hnp : ¬ (m :: cs').isPrefixOf (c :: rest) := by
        intro hp
        simp only [List.isPrefixOf, Bool.and_eq_true, beq_iff_eq] at hp
        rw [hp.1] at hm
        rw [hm] at hc
        cases hc
      rw [beforeMarker?, if_neg hnp]
      have h2 : is_comment (m :: cs') rest = true := by
        simpa [is_comment, pyLstrip, List.dropWhile_cons, hc] using h
      rw [ih h2]
      simp [List.takeWhile_cons, hc]
    · have hp : (m :: cs').isPrefixOf (c :: rest) := by
        simpa [is_comment, pyLstrip, List.dropWhile_cons, hc] using h
      rw [beforeMarker?, if_pos hp]
      simp [List.takeWhile_cons, hc]

/-! ## Extraction from an accepted re-wrap -/

/-- When the re-wrapper accepts (`wrapLines?` returns a block), the
produced lines are the greedy packing of the token sequence obtained
from `line.split()` after the marker-dropping and marker-stripping
steps. -/
theorem wrapLines?_some (limit : Nat) (str_start line line_start : List Char)
    (lines : List (List (List Char)))
    (h : wrapLines? limit str_start line = some (line_start, lines)) :
    lines = wrapWords limit line_start.length
      (stripMarker str_start (delMarker str_start (pySplit line))) := by
  simp only [wrapLines?] at h
  split at h
  · exact absurd h (by simp)
  · split at h
    · exact absurd h (by simp)
    · next w0 ws0 heqsp =>
      split at h
      · exact absurd h (by simp)
      · next c0 w0t heqw0 =>
        split at h
        · exact absurd h (by simp)
        · next hguard =>
          rw [Option.some_inj] at h
          have h1 := congrArg Prod.fst h
          have h2 := congrArg Prod.snd h
          simp only at h1 h2
          rw [heqsp, ← h1, ← h2]

/-! ## Characterization of a positive continuation decision -/

/-- When the continuation decision is positive, the inserter replaces
the new line with the previous line's indentation, the marker, one
space and the trimmed trailing content, then moves the caret to end of
line. -/
theorem return_insert_spec (l_map : LangMap) (v : ReturnView)
    (hok : markerOK l_map.comment_str = true)
    (hp : is_comment l_map.comment_str v.pLine = true)
    (hd : is_comment l_map.comment_str v.ppLine = true ∨ pyStrip v.line ≠ []) :
    on_RETURN_insert_comment l_map v =
      [WriteOp.replaceLine v.lineNum
        (v.pLine.takeWhile pyIsSpace ++ l_map.comment_str ++ [' '] ++ pyStrip v.line),
       WriteOp.lineEnd] := by
  have hcond : ¬ (¬ (is_comment l_map.comment_str v.ppLine = true ∨ pyStrip v.line ≠ []) ∨
      ¬ is_comment l_map.comment_str v.pLine = true) := by
    intro hbad
    rcases hbad with hbad | hbad
    · exact hbad hd
    · exact hbad hp
  simp only [on_RETURN_insert_comment]
  rw [if_neg hcond, beforeMarker?_comment l_map.comment_str v.pLine hok hp]

/-! ## The claims -/

/-- Claim C1: for every line accepted by the re-wrapper, flattening the
produced block's output lines (equivalently: re-joining them with
single spaces and stripping the synthesized per-line prefixes) yields
exactly the token sequence of the input line after the marker-dropping
and marker-stripping steps — no word is lost, duplicated or
reordered. -/
theorem claim_C1 (limit : Nat) (str_start line line_start : List Char)
    (lines : List (List (List Char)))
    (h : wrapLines? limit str_start line = some (line_start, lines)) :
    lines.flatten = stripMarker str_start (delMarker str_start (pySplit line)) := by
  rw [wrapLines?_some limit str_start line line_start lines h]
  exact wrapWords_flatten limit line_start.length _

/-- Witness for C1 on the accepted input `"# aa bb cc dd ee ff"` with
limit 10 and marker `#`. -/
theorem claim_C1_witness :
    wrapLines? 10 ("#".toList) ("# aa bb cc dd ee ff".toList) =
      some ("# ".toList,
        [["aa".toList, "bb".toList, "cc".toList],
         ["dd".toList, "ee".toList, "ff".toList]]) ∧
    ([["aa".toList, "bb".toList, "cc".toList],
      ["dd".toList, "ee".toList, "ff".toList]] : List (List (List Char))).flatten =
      stripMarker ("#".toList) (delMarker ("#".toList) (pySplit ("# aa bb cc dd ee ff".toList))) :=
  ⟨by decide,
   claim_C1 10 ("#".toList) ("# aa bb cc dd ee ff".toList) ("# ".toList)
     [["aa".toList, "bb".toList, "cc".toList], ["dd".toList, "ee".toList, "ff".toList]]
     (by decide)⟩

/-- Claim C2: for every line accepted by the re-wrapper, every output
line whose rendered length (prefix plus words, in characters) exceeds
`columnLimit` carries a single word (prefix plus that one word); every
other produced line is within the limit. -/
theorem claim_C2 (limit : Nat) (str_start line line_start : List Char)
    (lines : List (List (List Char)))
    (h : wrapLines? limit str_start line = some (line_start, lines)) :
    ∀ l ∈ lines, limit < (renderLine line_start l).length →
      ∃ w, l = [w] ∧ renderLine line_start l = line_start ++ w := by
  intro l hl hlen
  rw [wrapLines?_some limit str_start line line_start lines h] at hl
  have hne := wrapWords_ne_nil limit line_start.length _ l hl
  have hb := wrapWords_len_bound limit line_start.length _ l hl
  have hlen' : limit < renderLen line_start.length l := by
    rw [← renderLine_length line_start l hne]; exact hlen
  have hlt2 : l.length < 2 := by
    by_contra h2
    push_neg at h2
    exact absurd (hb h2) (by omega)
  obtain ⟨w, rfl⟩ : ∃ w, l = [w] := by
    cases l with
    | nil => exact absurd rfl hne
    | cons w t =>
      cases t with
      | nil => exact ⟨w, rfl⟩
      | cons w2 t2 =>
        exfalso
        simp only [List.length_cons] at hlt2
        omega
  exact ⟨w, rfl, rfl⟩

/-- Witness for C2 on the spec scenario `"    # this is a long comment
line"` with limit 10: the single over-limit produced line is the
single-word line `"    # comment"`. -/
theorem claim_C2_witness :
    ∃ w, ([ "comment".toList ] : List (List Char)) = [w] ∧
      renderLine ("    # ".toList) ["comment".toList] = "    # ".toList ++ w :=
  claim_C2 10 ("#".toList) ("    # this is a long comment line".toList) ("    # ".toList)
    [["this".toList], ["is".toList, "a".toList], ["long".toList], ["comment".toList],
     ["line".toList]]
    (by decide) ["comment".toList] (by decide) (by decide)

/-- Claim C3: for every accepted input containing a word longer than
`columnLimit`, that word occupies an output line of its own, unmodified
and never split, and the following word (when one exists) starts the
next, fresh line. -/
theorem claim_C3 (limit : Nat) (str_start line line_start : List Char)
    (l₁ l₂ : List (List Char)) (blk : List (List (List Char))) (w : List Char)
    (h : wrapLines? limit str_start line = some (line_start, blk))
    (hsplit : stripMarker str_start (delMarker str_start (pySplit line)) = l₁ ++ w :: l₂)
    (hW : limit < w.length) :
    ∃ L₁ L₂, blk = L₁ ++ [w] :: L₂ ∧ L₁.flatten = l₁ ∧ L₂.flatten = l₂ ∧
      (L₂.head?.getD []).head? = l₂.head? := by
  rw [wrapLines?_some limit str_start line line_start blk h]
  exact wrapWords_overlong limit line_start.length _ l₁ l₂ w hW hsplit

/-- Witness for C3 on `"# aa bbbbbbbbbbbb cc dd"` with limit 10: the
12-character word gets its own line and `"cc"` starts the next one. -/
theorem claim_C3_witness :
    ∃ L₁ L₂,
      ([["aa".toList], ["bbbbbbbbbbbb".toList], ["cc".toList, "dd".toList]] :
          List (List (List Char))) = L₁ ++ ["bbbbbbbbbbbb".toList] :: L₂ ∧
      L₁.flatten = ["aa".toList] ∧
      L₂.flatten = ["cc".toList, "dd".toList] ∧
      (L₂.head?.getD []).head? = (["cc".toList, "dd".toList] : List (List Char)).head? :=
  claim_C3 10 ("#".toList) ("# aa bbbbbbbbbbbb cc dd".toList) ("# ".toList)
    ["aa".toList] ["cc".toList, "dd".toList]
    [["aa".toList], ["bbbbbbbbbbbb".toList], ["cc".toList, "dd".toList]]
    ("bbbbbbbbbbbb".toList)
    (by decide) (by decide) (by decide)

/-- Claim C4: for every line whose text with trailing whitespace
stripped has length at most the column limit, re-wrapping is a no-op:
no buffer write is performed (hence, in particular, a line exactly at
the limit is never split, and since nothing changes repeated calls
never alter the line). Stated for the comment path with
`comment_limit` and the docstring path with `docstring_limit`. -/
theorem claim_C4 :
    (∀ (l_map : LangMap) (ch : Nat) (v : WrapView),
        (pyRstrip v.line).length ≤ l_map.comment_limit →
        on_CHARADDED_wrap l_map ch ("comment".toList) v = []) ∧
    (∀ (l_map : LangMap) (ch : Nat) (v : WrapView) (dl : Nat),
        l_map.docstring_limit = some dl →
        (pyRstrip v.line).length ≤ dl →
        on_CHARADDED_wrap l_map ch ("docstring".toList) v = []) := by
  constructor
  · intro l_map ch v h
    have hnone : wrapLines? l_map.comment_limit l_map.comment_str v.line = none := by
      unfold wrapLines?
      rw [if_pos h]
    have hw : ∀ t : List Char, wrapTail l_map.comment_limit l_map.comment_str t v = [] := by
      intro t
      simp [wrapTail, hnone]
    have hne : ¬ (("comment".toList : List Char) = "docstring".toList) := by decide
    by_cases h1 : v.pos ≠ v.lineEndPos ∧ ch ≠ 32
    · simp [on_CHARADDED_wrap, h1]
    · by_cases hic : is_comment l_map.comment_str v.line = true
      · simp [on_CHARADDED_wrap, h1, hne, hic, hw]
      · simp [on_CHARADDED_wrap, h1, hne, hic]
  · intro l_map ch v dl hdl h
    by_cases h1 : v.pos ≠ v.lineEndPos ∧ ch ≠ 32
    · simp [on_CHARADDED_wrap, h1]
    · rcases hsd : l_map.style_docstring with _ | sd
      · simp [on_CHARADDED_wrap, h1, hsd]
      · rcases hds : l_map.docstring_str with _ | ds
        · simp [on_CHARADDED_wrap, h1, hsd, hdl, hds]
        · have hnone : wrapLines? dl ds v.line = none := by
            unfold wrapLines?
            rw [if_pos h]
          have hw : ∀ t : List Char, wrapTail dl ds t v = [] := by
            intro t
            simp [wrapTail, hnone]
          by_cases hstyle : v.styleAtPos ≠ sd
          · simp [on_CHARADDED_wrap, h1, hsd, hdl, hds, hstyle]
          · simp [on_CHARADDED_wrap, h1, hsd, hdl, hds, hstyle, hw]

/-- Witness for C4: a comment line of stripped length exactly 72 (the
`.py` limit) is left untouched. -/
theorem claim_C4_witness :
    on_CHARADDED_wrap lang_map_py 97 ("comment".toList)
      ⟨72, 4,
       ("# aaaaaaaaaaaaaaaaaaaaaaaaaaaaaaaaaaaaaaaaaaaaaaaaaaaaaaaaaaaaaaaaaa bb  ".toList),
       72, 0⟩ = [] :=
  claim_C4.1 lang_map_py 97
    ⟨72, 4,
     ("# aaaaaaaaaaaaaaaaaaaaaaaaaaaaaaaaaaaaaaaaaaaaaaaaaaaaaaaaaaaaaaaaaa bb  ".toList),
     72, 0⟩
    (by decide)

/-- Claim C5: the continuation inserter writes a continued comment
prefix if and only if the line above is a comment line and (the line
two above is also a comment line or the new line's stripped content is
nonempty); in particular, with only the previous line a comment and
trailing text `foo`, the new line becomes indentation, marker, one
space and `foo`; otherwise it is a no-op. -/
theorem claim_C5 (l_map : LangMap) (v : ReturnView) :
    (on_RETURN_insert_comment l_map v ≠ [] ↔
      (is_comment l_map.comment_str v.pLine = true ∧
        (is_comment l_map.comment_str v.ppLine = true ∨ pyStrip v.line ≠ []))) ∧
    (markerOK l_map.comment_str = true →
      is_comment l_map.comment_str v.pLine = true →
      is_comment l_map.comment_str v.ppLine = false →
      pyStrip v.line = "foo".toList →
      on_RETURN_insert_comment l_map v =
        [WriteOp.replaceLine v.lineNum
          (v.pLine.takeWhile pyIsSpace ++ l_map.comment_str ++ [' '] ++ "foo".toList),
         WriteOp.lineEnd]) := by
  constructor
  · constructor
    · intro hne
      by_contra hno
      apply hne
      simp only [on_RETURN_insert_comment]
      split
      · rfl
      · next hcond =>
        exfalso
        apply hno
        constructor
        · by_contra hC
          exact hcond (Or.inr hC)
        · by_contra hAB
          exact hcond (Or.inl hAB)
    · rintro ⟨hp, hd⟩
      have hs := beforeMarker?_isSome l_map.comment_str v.pLine hp
      obtain ⟨pre, hpre⟩ := Option.isSome_iff_exists.mp hs
      have hcond : ¬ (¬ (is_comment l_map.comment_str v.ppLine = true ∨
          pyStrip v.line ≠ []) ∨ ¬ is_comment l_map.comment_str v.pLine = true) := by
        intro hbad
        rcases hbad with hbad | hbad
        · exact hbad hd
        · exact hbad hp
      simp only [on_RETURN_insert_comment]
      rw [if_neg hcond, hpre]
      simp
  · intro hok hp hpp hfoo
    have hspec := return_insert_spec l_map v hok hp (Or.inr (by rw [hfoo]; simp))
    rw [hspec, hfoo]

/-- Witness for C5: previous line `"  # hello"` a comment, line two
above `"x"` not a comment, trailing text `foo`: the new line becomes
`"  # foo"`. -/
theorem claim_C5_witness :
    on_RETURN_insert_comment lang_map_py
      ⟨3, "   foo  ".toList, "  # hello".toList, "x".toList⟩ =
      [WriteOp.replaceLine 3
        (("  # hello".toList).takeWhile pyIsSpace ++ lang_map_py.comment_str ++ [' '] ++
          "foo".toList),
       WriteOp.lineEnd] :=
  (claim_C5 lang_map_py ⟨3, "   foo  ".toList, "  # hello".toList, "x".toList⟩).2
    (by decide) (by decide) (by decide) (by decide)

/-- Claim C6: when the continuation decision is positive, the
replacement written for the new line equals the indentation copied from
the line above (the part before its marker) followed by the marker, a
single space and the trimmed trailing content of the new line, and the
caret is then moved to end of line (the final `lineEnd` write). -/
theorem claim_C6 (l_map : LangMap) (v : ReturnView)
    (hok : markerOK l_map.comment_str = true)
    (hp : is_comment l_map.comment_str v.pLine = true)
    (hd : is_comment l_map.comment_str v.ppLine = true ∨ pyStrip v.line ≠ []) :
    on_RETURN_insert_comment l_map v =
      [WriteOp.replaceLine v.lineNum
        (v.pLine.takeWhile pyIsSpace ++ l_map.comment_str ++ [' '] ++ pyStrip v.line),
       WriteOp.lineEnd] :=
  return_insert_spec l_map v hok hp hd

/-- Witness for C6: `.c` profile, previous line `"    // x"`, line two
above also a comment, trailing text `bar`. -/
theorem claim_C6_witness :
    on_RETURN_insert_comment lang_map_c
      ⟨7, "  bar".toList, "    // x".toList, "// y".toList⟩ =
      [WriteOp.replaceLine 7
        (("    // x".toList).takeWhile pyIsSpace ++ lang_map_c.comment_str ++ [' '] ++
          pyStrip ("  bar".toList)),
       WriteOp.lineEnd] :=
  claim_C6 lang_map_c ⟨7, "  bar".toList, "    // x".toList, "// y".toList⟩
    (by decide) (by decide) (Or.inl (by decide))

/-- Claim C7: for every event whose active file's lowercased extension
is not a key of the language registry, the dispatcher performs zero
buffer mutations and zero caret movements, regardless of the character
typed or the buffer contents. -/
theorem claim_C7 (ext : List Char) (ch : Nat) (v1 v2 : WrapView) (rv : ReturnView)
    (h : langMapLookup (ext.map Char.toLower) = none) :
    on_CHARADDED_insert ext ch v1 v2 rv = [] := by
  simp [on_CHARADDED_insert, h]

/-- Witness for C7: extension `.md` is a silent no-op. -/
theorem claim_C7_witness :
    on_CHARADDED_insert (".md".toList) 10 ⟨0, 0, [], 0, 0⟩ ⟨0, 0, [], 0, 0⟩
      ⟨0, [], [], []⟩ = [] :=
  claim_C7 (".md".toList) 10 ⟨0, 0, [], 0, 0⟩ ⟨0, 0, [], 0, 0⟩ ⟨0, [], [], []⟩
    (by decide)

/-- Claim C8: each handler invocation is atomic with respect to its
preconditions: whenever any precondition of the re-wrapper or of the
continuation inserter fails, the handler performs no write at all — the
checks all happen before the first write. -/
theorem claim_C8 :
    (∀ (l_map : LangMap) (ch : Nat) (ty : List Char) (v : WrapView),
        wrapPre l_map ch ty v = false → on_CHARADDED_wrap l_map ch ty v = []) ∧
    (∀ (l_map : LangMap) (v : ReturnView),
        returnPre l_map v = false → on_RETURN_insert_comment l_map v = []) := by
  constructor
  · intro l_map ch ty v h
    by_cases h1 : v.pos ≠ v.lineEndPos ∧ ch ≠ 32
    · simp [on_CHARADDED_wrap, h1]
    · have hb1 : (v.pos == v.lineEndPos || ch == 32) = true := by
        rcases Decidable.not_and_iff_or_not.mp h1 with hx | hx
        · simp only [ne_eq, not_not] at hx
          simp [hx]
        · simp only [ne_eq, not_not] at hx
          simp [hx]
      rw [wrapPre, hb1, Bool.true_and] at h
      by_cases hty1 : ty = "docstring".toList
      · rw [if_pos hty1] at h
        subst hty1
        rcases hsd : l_map.style_docstring with _ | sd
        · simp [on_CHARADDED_wrap, h1, hsd]
        · rcases hdl : l_map.docstring_limit with _ | dl
          · simp [on_CHARADDED_wrap, h1, hsd, hdl]
          · rcases hds : l_map.docstring_str with _ | ds
            · simp [on_CHARADDED_wrap, h1, hsd, hdl, hds]
            · rw [hsd, hdl, hds] at h
              by_cases hstyle : v.styleAtPos ≠ sd
              · simp [on_CHARADDED_wrap, h1, hsd, hdl, hds, hstyle]
              · simp only [ne_eq, not_not] at hstyle
                rw [hstyle] at h
                simp only [beq_self_eq_true, Bool.true_and] at h
                have hnone : wrapLines? dl ds v.line = none :=
                  Option.not_isSome_iff_eq_none.mp (by simp [h])
                simp [on_CHARADDED_wrap, h1, hsd, hdl, hds, hstyle, wrapTail, hnone]
      · by_cases hty2 : ty = "comment".toList
        · rw [if_neg hty1, if_pos hty2] at h
          subst hty2
          by_cases hic : is_comment l_map.comment_str v.line = true
          · rw [hic, Bool.true_and] at h
            have hnone : wrapLines? l_map.comment_limit l_map.comment_str v.line = none :=
              Option.not_isSome_iff_eq_none.mp (by simp [h])
            simp [on_CHARADDED_wrap, h1, hty1, hic, wrapTail, hnone]
          · simp [on_CHARADDED_wrap, h1, hty1, hic]
        · simp only [on_CHARADDED_wrap]
          rw [if_neg h1, if_neg hty1, if_neg hty2]
  · intro l_map v h
    simp only [on_RETURN_insert_comment]
    split
    · rfl
    · next hcond =>
      exfalso
      have hAB : is_comment l_map.comment_str v.ppLine = true ∨ pyStrip v.line ≠ [] := by
        by_contra hx
        exact hcond (Or.inl hx)
      have hC : is_comment l_map.comment_str v.pLine = true := by
        by_contra hx
        exact hcond (Or.inr hx)
      rw [returnPre, hC, Bool.and_true] at h
      rcases hAB with hAB | hAB
      · rw [hAB] at h
        cases h
      · rw [(by simpa [List.isEmpty_iff] using hAB : (pyStrip v.line).isEmpty = false)] at h
        simp at h

/-- Witness for C8: a non-comment line for the wrap path and a
non-comment previous line for the continuation path both leave the
buffer untouched. -/
theorem claim_C8_witness :
    on_CHARADDED_wrap lang_map_py 65 ("comment".toList)
      ⟨11, 2, "hello world".toList, 11, 0⟩ = [] ∧
    on_RETURN_insert_comment lang_map_py ⟨1, [], "x".toList, []⟩ = [] :=
  ⟨claim_C8.1 lang_map_py 65 ("comment".toList) ⟨11, 2, "hello world".toList, 11, 0⟩
     (by decide),
   claim_C8.2 lang_map_py ⟨1, [], "x".toList, []⟩ (by decide)⟩

/-- Claim C9 (implicit): only character code 10 (line feed) routes to
the continuation inserter; any other code — in particular carriage
return, 13 — falls through to the wrap path like an ordinary
character. -/
theorem claim_C9 (ch : Nat) (v1 v2 : WrapView) (rv : ReturnView) (hch : ch ≠ 10) :
    on_CHARADDED_insert (".py".toList) 10 v1 v2 rv =
      on_RETURN_insert_comment lang_map_py rv ∧
    on_CHARADDED_insert (".c".toList) 10 v1 v2 rv =
      on_RETURN_insert_comment lang_map_c rv ∧
    on_CHARADDED_insert (".py".toList) ch v1 v2 rv =
      on_CHARADDED_wrap lang_map_py ch ("docstring".toList) v1 ++
        on_CHARADDED_wrap lang_map_py ch ("comment".toList) v2 ∧
    on_CHARADDED_insert (".c".toList) ch v1 v2 rv =
      on_CHARADDED_wrap lang_map_c ch ("comment".toList) v1 := by
  refine ⟨?_, ?_, ?_, ?_⟩
  · simp only [on_CHARADDED_insert]
    rw [(by decide : ((".py".toList : List Char).map Char.toLower) = ".py".toList)]
    rw [(by decide : langMapLookup (".py".toList) = some lang_map_py)]
    simp
  · simp only [on_CHARADDED_insert]
    rw [(by decide : ((".c".toList : List Char).map Char.toLower) = ".c".toList)]
    rw [(by decide : langMapLookup (".c".toList) = some lang_map_c)]
    simp
  · simp only [on_CHARADDED_insert]
    rw [(by decide : ((".py".toList : List Char).map Char.toLower) = ".py".toList)]
    rw [(by decide : langMapLookup (".py".toList) = some lang_map_py)]
    simp [hch]
  · simp only [on_CHARADDED_insert]
    rw [(by decide : ((".c".toList : List Char).map Char.toLower) = ".c".toList)]
    rw [(by decide : langMapLookup (".c".toList) = some lang_map_c)]
    simp [hch]

/-- Witness for C9 at the carriage-return code 13. -/
theorem claim_C9_witness :
    on_CHARADDED_insert (".py".toList) 13 ⟨0, 0, [], 0, 0⟩ ⟨0, 0, [], 0, 0⟩
      ⟨0, [], [], []⟩ =
      on_CHARADDED_wrap lang_map_py 13 ("docstring".toList) ⟨0, 0, [], 0, 0⟩ ++
        on_CHARADDED_wrap lang_map_py 13 ("comment".toList) ⟨0, 0, [], 0, 0⟩ :=
  (claim_C9 13 ⟨0, 0, [], 0, 0⟩ ⟨0, 0, [], 0, 0⟩ ⟨0, [], [], []⟩ (by decide)).2.2.1

/-- Claim C10 (implicit): whenever the length precondition passes
(stripped length strictly greater than the positive column limit), the
line holds a non-whitespace character, so `line.split()` is nonempty —
the `words == []` guard is unreachable — and the first word is
nonempty with its first character occurring in the line, so
`line.index(words[0][0])` cannot fail. -/
theorem claim_C10 (limit : Nat) (line : List Char) (h0 : 0 < limit)
    (h : limit < (pyRstrip line).length) :
    pySplit line ≠ [] ∧
      ∃ w ws, pySplit line = w :: ws ∧ w ≠ [] ∧
        ∀ c, w.head? = some c → c ∈ line := by
  have hne : pyRstrip line ≠ [] := by
    intro hc
    rw [hc] at h
    simp at h
  have hex := pyRstrip_ne_nil line hne
  have hsp := pySplit_ne_nil line hex
  refine ⟨hsp, ?_⟩
  obtain ⟨w, ws, hws⟩ : ∃ w ws, pySplit line = w :: ws := by
    cases hsp' : pySplit line with
    | nil => exact absurd hsp' hsp
    | cons w ws => exact ⟨w, ws, rfl⟩
  obtain ⟨h1, h2⟩ := pySplit_head line w ws hws
  exact ⟨w, ws, hws, h1, h2⟩

/-- Witness for C10 on the line `" aaaaaaa"` with limit 5. -/
theorem claim_C10_witness :
    pySplit (" aaaaaaa".toList) ≠ [] ∧
      ∃ w ws, pySplit (" aaaaaaa".toList) = w :: ws ∧ w ≠ [] ∧
        ∀ c, w.head? = some c → c ∈ (" aaaaaaa".toList) :=
  claim_C10 5 (" aaaaaaa".toList) (by decide) (by decide)

end NppInsert
